import Mathlib

/-!
Shallow embedding of the Block Blast solver core (src/app.js) and proofs of
the specified properties.

The embedded components:
* board placement primitives `canFit` and `applyMove`;
* the strategy scoring function `calculateStrategyScore`;
* the exhaustive permutation/backtracking solver `suggestMoves` with its
  helpers `getPermutations` and the offset extraction of valid pieces;
* the k-means cell classifier `kMeansCluster` with `avgPoint`;
* the piece-shape inference arithmetic of `processFigureSlot`.

Modelling conventions:
* A board is a total function `Nat → Nat → Nat`; the JavaScript code only
  reads indices `0..7` on every path modelled here, so a function model is
  observationally faithful on those paths.  Cell values are the JavaScript
  numbers `0`/`1`.
* JavaScript numbers appearing in exact integer computations are modelled
  by `Nat`/`Int`; color channels, pixel areas and the derived unit sizes
  (which may be fractional) are modelled by `ℚ`.  All values involved are
  small integers or exact ratios, where float arithmetic is exact.
* `Math.hypot` distance comparisons are modelled by comparisons of squared
  distances, which is equivalent because the square root is strictly
  monotone on nonnegative reals.
* `Array.prototype.sort` with a numeric comparator is modelled by the
  stable `List.mergeSort`.
-/

namespace BlockBlast

/-- A piece offset object `{dr, dc}` as built by `suggestMoves`; both
components are loop indices of the pattern grid, hence natural numbers. -/
structure Offset where
  dr : Nat
  dc : Nat
deriving DecidableEq, Repr

/-- An 8×8 board, modelled as a total function on cell coordinates. -/
abbrev Board := Nat → Nat → Nat

/-- A raw occupancy pattern (`pattern` in app.js): a list of rows of cells. -/
abbrev Grid := List (List Nat)

/-- The boards produced by the cell classifier have every cell in {0,1}. -/
def Binary (b : Board) : Prop := ∀ i < 8, ∀ j < 8, b i j = 0 ∨ b i j = 1

/-- `canFit(b, offsets, r, c)` from app.js: a placement fails if some offset
cell falls at row ≥ 8, column ≥ 8, or on a cell holding 1. -/
def canFit (b : Board) (offsets : List Offset) (r c : Nat) : Bool :=
  offsets.all fun off =>
    !(decide (8 ≤ r + off.dr) || decide (8 ≤ c + off.dc) ||
      decide (b (r + off.dr) (c + off.dc) = 1))

/-- One JavaScript 2-D array assignment `b[i][j] = v` on a board copy. -/
def updateCell (b : Board) (i j v : Nat) : Board :=
  fun i2 j2 => if i2 = i ∧ j2 = j then v else b i2 j2

/-- The `offsets.forEach(off => nextB[r+off.dr][c+off.dc] = 1)` pass of
`applyMove`. -/
def fillCells (b : Board) (offsets : List Offset) (r c : Nat) : Board :=
  offsets.foldl (fun nb off => updateCell nb (r + off.dr) (c + off.dc) 1) b

/-- `nextB[i].every(v => v === 1)` — the row-full test of `applyMove`. -/
def rowFullB (b : Board) (i : Nat) : Bool :=
  (List.range 8).all fun j => decide (b i j = 1)

/-- The column-full test of `applyMove`: `full` stays true unless some
`nextB[j][i] === 0`. -/
def colFullB (b : Board) (i : Nat) : Bool :=
  (List.range 8).all fun j => !decide (b j i = 0)

/-- `rows.forEach(ri => nextB[ri].fill(0))`. -/
def clearRows (b : Board) (rows : List Nat) : Board :=
  rows.foldl (fun nb ri => fun i j => if i = ri then 0 else nb i j) b

/-- `cols.forEach(ci => { for (ri...) nextB[ri][ci] = 0 })`. -/
def clearCols (b : Board) (cols : List Nat) : Board :=
  cols.foldl (fun nb ci => fun i j => if j = ci then 0 else nb i j) b

/-- `applyMove(b, offsets, r, c)` from app.js: fill the offset cells on a
copy, collect the full rows and full columns of the filled board, clear
them, and return the cleared board with `rows.length + cols.length`. -/
def applyMove (b : Board) (offsets : List Offset) (r c : Nat) : Board × Nat :=
  let nextB := fillCells b offsets r c
  let rows := (List.range 8).filter fun i => rowFullB nextB i
  let cols := (List.range 8).filter fun i => colFullB nextB i
  (clearCols (clearRows nextB rows) cols, rows.length + cols.length)

/-! Specification-side vocabulary for rows, columns and counts. -/

/-- A fully occupied row, in the spec's sense. -/
def FullRow (b : Board) (i : Nat) : Prop := ∀ j < 8, b i j = 1

/-- A fully occupied column, in the spec's sense. -/
def FullCol (b : Board) (j : Nat) : Prop := ∀ i < 8, b i j = 1

instance (b : Board) (i : Nat) : Decidable (FullRow b i) :=
  inferInstanceAs (Decidable (∀ j < 8, b i j = 1))

instance (b : Board) (j : Nat) : Decidable (FullCol b j) :=
  inferInstanceAs (Decidable (∀ i < 8, b i j = 1))

instance (b : Board) : Decidable (Binary b) :=
  inferInstanceAs (Decidable (∀ i < 8, ∀ j < 8, b i j = 0 ∨ b i j = 1))

/-- Number of fully occupied rows of a board. -/
def numFullRows (b : Board) : Nat :=
  ((List.range 8).filter fun i => decide (FullRow b i)).length

/-- Number of fully occupied columns of a board. -/
def numFullCols (b : Board) : Nat :=
  ((List.range 8).filter fun j => decide (FullCol b j)).length

/-! Pointwise characterisations of the board-mutation passes. -/

lemma fillCells_apply (offsets : List Offset) (b : Board) (r c i j : Nat) :
    fillCells b offsets r c i j =
      if ∃ off ∈ offsets, r + off.dr = i ∧ c + off.dc = j then 1 else b i j := by
  induction offsets generalizing b with
  | nil => simp [fillCells]
  | cons off offs ih =>
    show fillCells (updateCell b (r + off.dr) (c + off.dc) 1) offs r c i j = _
    rw [ih]
    by_cases h1 : ∃ o ∈ offs, r + o.dr = i ∧ c + o.dc = j
    · obtain ⟨o, ho, hij⟩ := h1
      rw [if_pos ⟨o, ho, hij⟩, if_pos ⟨o, List.mem_cons_of_mem _ ho, hij⟩]
    · rw [if_neg h1]
      simp only [updateCell]
      by_cases h2 : i = r + off.dr ∧ j = c + off.dc
      · rw [if_pos h2, if_pos ⟨off, List.mem_cons_self off offs, h2.1.symm, h2.2.symm⟩]
      · rw [if_neg h2, if_neg]
        rintro ⟨o, ho, hij⟩
        rcases List.mem_cons.mp ho with rfl | ho2
        · exact h2 ⟨hij.1.symm, hij.2.symm⟩
        · exact h1 ⟨o, ho2, hij⟩

lemma clearRows_apply (rows : List Nat) (b : Board) (i j : Nat) :
    clearRows b rows i j = if i ∈ rows then 0 else b i j := by
  induction rows generalizing b with
  | nil => simp [clearRows]
  | cons r0 rs ih =>
    show clearRows (fun i2 j2 => if i2 = r0 then 0 else b i2 j2) rs i j = _
    rw [ih]
    by_cases h1 : i ∈ rs
    · simp [h1, List.mem_cons]
    · by_cases h2 : i = r0 <;> simp [h1, h2, List.mem_cons]

lemma clearCols_apply (cols : List Nat) (b : Board) (i j : Nat) :
    clearCols b cols i j = if j ∈ cols then 0 else b i j := by
  induction cols generalizing b with
  | nil => simp [clearCols]
  | cons c0 cs ih =>
    show clearCols (fun i2 j2 => if j2 = c0 then 0 else b i2 j2) cs i j = _
    rw [ih]
    by_cases h1 : j ∈ cs
    · simp [h1, List.mem_cons]
    · by_cases h2 : j = c0 <;> simp [h1, h2, List.mem_cons]

lemma binary_fillCells (b : Board) (offsets : List Offset) (r c : Nat)
    (hb : Binary b) : Binary (fillCells b offsets r c) := by
  intro i hi j hj
  rw [fillCells_apply]
  by_cases h : ∃ off ∈ offsets, r + off.dr = i ∧ c + off.dc = j
  · rw [if_pos h]; exact Or.inr rfl
  · rw [if_neg h]; exact hb i hi j hj

lemma rowFullB_iff (b : Board) (i : Nat) : rowFullB b i = true ↔ FullRow b i := by
  simp [rowFullB, FullRow, List.mem_range]

lemma colFullB_iff (b : Board) (i : Nat) (hb : Binary b) (hi : i < 8) :
    colFullB b i = true ↔ FullCol b i := by
  simp only [colFullB, FullCol, List.all_eq_true, List.mem_range,
    Bool.not_eq_true', decide_eq_false_iff_not]
  constructor
  · intro h j hj
    rcases hb j hj i hi with h0 | h1
    · exact absurd h0 (h j hj)
    · exact h1
  · intro h j hj
    rw [h j hj]; omega

lemma applyMove_rows_eq (F : Board) :
    ((List.range 8).filter fun i => rowFullB F i) =
      ((List.range 8).filter fun i => decide (FullRow F i)) := by
  apply List.filter_congr
  intro i _
  cases h : rowFullB F i
  · have := (rowFullB_iff F i).not.mp (by simp [h])
    simp [this]
  · have := (rowFullB_iff F i).mp h
    simp [this]

lemma applyMove_cols_eq (F : Board) (hb : Binary F) :
    ((List.range 8).filter fun i => colFullB F i) =
      ((List.range 8).filter fun j => decide (FullCol F j)) := by
  apply List.filter_congr
  intro i hi
  have hi8 : i < 8 := List.mem_range.mp hi
  cases h : colFullB F i
  · have := (colFullB_iff F i hb hi8).not.mp (by simp [h])
    simp [this]
  · have := (colFullB_iff F i hb hi8).mp h
    simp [this]

/-- Claim C4: on a binary board, with in-range anchor, `canFit` holds iff
every offset cell is in bounds and currently empty. -/
theorem canFit_iff (b : Board) (offsets : List Offset) (r c : Nat)
    (hb : Binary b) (hr : r < 8) (hc : c < 8) :
    canFit b offsets r c = true ↔
      ∀ off ∈ offsets,
        r + off.dr < 8 ∧ c + off.dc < 8 ∧ b (r + off.dr) (c + off.dc) = 0 := by
  simp only [canFit, List.all_eq_true, Bool.not_eq_true', Bool.or_eq_false_iff,
    decide_eq_false_iff_not, not_le]
  constructor
  · intro h off ho
    obtain ⟨⟨h1, h2⟩, h3⟩ := h off ho
    refine ⟨h1, h2, ?_⟩
    rcases hb (r + off.dr) h1 (c + off.dc) h2 with h0 | h0
    · exact h0
    · exact absurd h0 h3
  · intro h off ho
    obtain ⟨h1, h2, h3⟩ := h off ho
    exact ⟨⟨h1, h2⟩, by omega⟩

/-- Fixture board: row 0 has columns 0..6 occupied, everything else empty. -/
def b1 : Board := fun i j => if i = 0 ∧ j < 7 then 1 else 0

/-- Witness for C4 at a concrete board, piece and anchor. -/
theorem canFit_iff_witness :
    Binary b1 ∧ (0 : Nat) < 8 ∧ (7 : Nat) < 8 ∧
      (canFit b1 [⟨0, 0⟩] 0 7 = true ↔
        ∀ off ∈ ([⟨0, 0⟩] : List Offset),
          0 + off.dr < 8 ∧ 7 + off.dc < 8 ∧ b1 (0 + off.dr) (7 + off.dc) = 0) :=
  ⟨by decide, by decide, by decide,
    canFit_iff b1 [⟨0, 0⟩] 0 7 (by decide) (by decide) (by decide)⟩

/-- Claim C1: on a legal placement, `applyMove` fills every offset cell,
returns `cleared` equal to the number of full rows plus the number of full
columns of the filled board, and the returned board is the filled board
with every full row and full column reset to 0 (so a cell at the
intersection of a cleared row and a cleared column ends at 0 while having
been counted in both the row total and the column total). -/
theorem applyMove_spec (b : Board) (offsets : List Offset) (r c : Nat)
    (hb : Binary b) (hne : offsets ≠ []) (hfit : canFit b offsets r c = true) :
    (∀ off ∈ offsets, fillCells b offsets r c (r + off.dr) (c + off.dc) = 1) ∧
    (applyMove b offsets r c).2
      = numFullRows (fillCells b offsets r c) + numFullCols (fillCells b offsets r c) ∧
    (∀ i j, i < 8 → j < 8 →
      ((FullRow (fillCells b offsets r c) i ∨ FullCol (fillCells b offsets r c) j) →
        (applyMove b offsets r c).1 i j = 0) ∧
      (¬(FullRow (fillCells b offsets r c) i ∨ FullCol (fillCells b offsets r c) j) →
        (applyMove b offsets r c).1 i j = fillCells b offsets r c i j)) := by
  have hbF : Binary (fillCells b offsets r c) := binary_fillCells b offsets r c hb
  refine ⟨?_, ?_, ?_⟩
  · intro off ho
    rw [fillCells_apply, if_pos ⟨off, ho, rfl, rfl⟩]
  · show ((List.range 8).filter fun i => rowFullB (fillCells b offsets r c) i).length +
        ((List.range 8).filter fun i => colFullB (fillCells b offsets r c) i).length = _
    rw [applyMove_rows_eq, applyMove_cols_eq _ hbF]
    rfl
  · intro i j hi hj
    have hrow : (i ∈ (List.range 8).filter fun t => rowFullB (fillCells b offsets r c) t)
        ↔ FullRow (fillCells b offsets r c) i := by
      rw [List.mem_filter]
      simp [List.mem_range, hi, rowFullB_iff]
    have hcol : (j ∈ (List.range 8).filter fun t => colFullB (fillCells b offsets r c) t)
        ↔ FullCol (fillCells b offsets r c) j := by
      rw [List.mem_filter]
      simp [List.mem_range, hj, colFullB_iff _ _ hbF hj]
    have happ : (applyMove b offsets r c).1 i j
        = if j ∈ ((List.range 8).filter fun t => colFullB (fillCells b offsets r c) t) then 0
          else if i ∈ ((List.range 8).filter fun t => rowFullB (fillCells b offsets r c) t)
            then 0 else fillCells b offsets r c i j := by
      show clearCols (clearRows (fillCells b offsets r c) _) _ i j = _
      rw [clearCols_apply, clearRows_apply]
    rw [happ]
    simp only [hrow, hcol]
    by_cases hR : FullRow (fillCells b offsets r c) i <;>
      by_cases hC : FullCol (fillCells b offsets r c) j <;>
      simp [hR, hC]

/-- Witness for C1: placing the single-cell piece at (0,7) on `b1` completes
row 0, which is the unique full line of the filled board. -/
theorem applyMove_spec_witness :
    Binary b1 ∧ ([⟨0, 0⟩] : List Offset) ≠ [] ∧ canFit b1 [⟨0, 0⟩] 0 7 = true ∧
      ((∀ off ∈ ([⟨0, 0⟩] : List Offset),
          fillCells b1 [⟨0, 0⟩] 0 7 (0 + off.dr) (7 + off.dc) = 1) ∧
        (applyMove b1 [⟨0, 0⟩] 0 7).2
          = numFullRows (fillCells b1 [⟨0, 0⟩] 0 7) + numFullCols (fillCells b1 [⟨0, 0⟩] 0 7) ∧
        (∀ i j, i < 8 → j < 8 →
          ((FullRow (fillCells b1 [⟨0, 0⟩] 0 7) i ∨ FullCol (fillCells b1 [⟨0, 0⟩] 0 7) j) →
            (applyMove b1 [⟨0, 0⟩] 0 7).1 i j = 0) ∧
          (¬(FullRow (fillCells b1 [⟨0, 0⟩] 0 7) i ∨ FullCol (fillCells b1 [⟨0, 0⟩] 0 7) j) →
            (applyMove b1 [⟨0, 0⟩] 0 7).1 i j = fillCells b1 [⟨0, 0⟩] 0 7 i j))) :=
  ⟨by decide, by decide, by decide,
    applyMove_spec b1 [⟨0, 0⟩] 0 7 (by decide) (by decide) (by decide)⟩

/-! The strategy scoring function (`calculateStrategyScore` in app.js). -/

/-- The inner 3×3 emptiness test of the "3x3 Empty Blocks Bonus" loop: the
`empty` flag survives iff no window cell holds 1. -/
def emptyWindowB (board : Board) (r c : Nat) : Bool :=
  (List.range 3).all fun rr => (List.range 3).all fun cc =>
    !decide (board (r + rr) (c + cc) = 1)

/-- The `(hMax, hCur)` state of the "5-cell Streak Bonus" row scan after
traversing row `i` left to right. -/
def rowScanPair (board : Board) (i : Nat) : Nat × Nat :=
  (List.range 8).foldl
    (fun mc j => if board i j = 0 then (mc.1, mc.2 + 1) else (max mc.1 mc.2, 0)) (0, 0)

/-- The `(vMax, vCur)` state of the streak scan down column `i`. -/
def colScanPair (board : Board) (i : Nat) : Nat × Nat :=
  (List.range 8).foldl
    (fun mc j => if board j i = 0 then (mc.1, mc.2 + 1) else (max mc.1 mc.2, 0)) (0, 0)

/-- `Math.max(hMax, hCur) >= 5` — row `i` earns the streak bonus. -/
def rowStreakB (board : Board) (i : Nat) : Bool :=
  decide (5 ≤ max (rowScanPair board i).1 (rowScanPair board i).2)

/-- `Math.max(vMax, vCur) >= 5` — column `i` earns the streak bonus. -/
def colStreakB (board : Board) (i : Nat) : Bool :=
  decide (5 ≤ max (colScanPair board i).1 (colScanPair board i).2)

/-- `board.flat().reduce((a, b) => a + b, 0)`. -/
def occSum (board : Board) : Nat :=
  ((List.range 8).flatMap fun r => (List.range 8).map fun c => board r c).foldl
    (fun a b => a + b) 0

/-- `calculateStrategyScore(board, totalCleared)` from app.js. -/
def calculateStrategyScore (board : Board) (totalCleared : Nat) : Int :=
  let s0 : Int := 5000 + 200 * totalCleared
  let s1 := (List.range 6).foldl (fun s r => (List.range 6).foldl (fun s c =>
      if emptyWindowB board r c then s + 50 else s) s) s0
  let s2 := (List.range 8).foldl (fun s i =>
      let sh := if rowStreakB board i then s + 30 else s
      if colStreakB board i then sh + 30 else sh) s1
  s2 + (64 - (occSum board : Int))

/-! Specification-side counting vocabulary for the score. -/

/-- The 3×3 window anchored at `(r, c)` is entirely empty. -/
def EmptyWindow (board : Board) (r c : Nat) : Prop :=
  ∀ dr < 3, ∀ dc < 3, board (r + dr) (c + dc) = 0

instance (board : Board) (r c : Nat) : Decidable (EmptyWindow board r c) :=
  inferInstanceAs (Decidable (∀ dr < 3, ∀ dc < 3, board (r + dr) (c + dc) = 0))

/-- Row `i` contains 5 consecutive empty cells, i.e. its longest contiguous
run of empty cells (without wraparound) is at least 5. -/
def RowStreak (board : Board) (i : Nat) : Prop :=
  ∃ s < 4, ∀ k < 5, board i (s + k) = 0

/-- Column `j` contains 5 consecutive empty cells. -/
def ColStreak (board : Board) (j : Nat) : Prop :=
  ∃ s < 4, ∀ k < 5, board (s + k) j = 0

instance (board : Board) (i : Nat) : Decidable (RowStreak board i) :=
  inferInstanceAs (Decidable (∃ s < 4, ∀ k < 5, board i (s + k) = 0))

instance (board : Board) (j : Nat) : Decidable (ColStreak board j) :=
  inferInstanceAs (Decidable (∃ s < 4, ∀ k < 5, board (s + k) j = 0))

/-- The 36 top-left anchors of 3×3 windows on the 8×8 board. -/
def windowPairs : List (Nat × Nat) :=
  (List.range 6).flatMap fun r => (List.range 6).map fun c => (r, c)

/-- All 64 cell coordinates of the board. -/
def cellPairs : List (Nat × Nat) :=
  (List.range 8).flatMap fun r => (List.range 8).map fun c => (r, c)

/-- Number of the 36 3×3 windows that are entirely empty. -/
def numEmptyWindows (board : Board) : Nat :=
  (windowPairs.filter fun rc => decide (EmptyWindow board rc.1 rc.2)).length

/-- Number of rows whose longest run of empty cells is ≥ 5. -/
def numRowStreaks (board : Board) : Nat :=
  ((List.range 8).filter fun i => decide (RowStreak board i)).length

/-- Number of columns whose longest run of empty cells is ≥ 5. -/
def numColStreaks (board : Board) : Nat :=
  ((List.range 8).filter fun j => decide (ColStreak board j)).length

/-- Number of occupied cells of the board. -/
def numOccupied (board : Board) : Nat :=
  (cellPairs.filter fun rc => decide (board rc.1 rc.2 = 1)).length

/-! Generic fold/count lemmas used to flatten the scoring loops. -/

lemma foldl_ite_add {α : Type} (p : α → Bool) (k : Int) :
    ∀ (l : List α) (s : Int),
      l.foldl (fun acc x => if p x then acc + k else acc) s = s + k * l.countP p := by
  intro l
  induction l with
  | nil => intro s; simp
  | cons a t ih =>
    intro s
    rw [List.foldl_cons, List.countP_cons]
    cases h : p a <;> simp only [h, if_true, if_false, Bool.false_eq_true, ite_false,
      ite_true, ih] <;> push_cast <;> ring

lemma foldl_add_map {α : Type} (f : α → Int) :
    ∀ (l : List α) (s : Int), l.foldl (fun acc x => acc + f x) s = s + (l.map f).sum := by
  intro l
  induction l with
  | nil => intro s; simp
  | cons a t ih => intro s; rw [List.foldl_cons, List.map_cons, List.sum_cons, ih]; ring

lemma sum_ite_count {α : Type} (p : α → Bool) (k : Int) :
    ∀ l : List α, (l.map fun x => if p x then k else 0).sum = k * l.countP p := by
  intro l
  induction l with
  | nil => simp
  | cons a t ih =>
    rw [List.map_cons, List.sum_cons, List.countP_cons, ih]
    cases h : p a <;> simp [h] <;> push_cast <;> ring

lemma sum_map_add_int {α : Type} (f g : α → Int) :
    ∀ l : List α, (l.map fun x => f x + g x).sum = (l.map f).sum + (l.map g).sum := by
  intro l
  induction l with
  | nil => simp
  | cons a t ih => simp [ih]; ring

lemma countP_flatMap {α β : Type} (f : α → List β) (p : β → Bool) :
    ∀ l : List α, (l.flatMap f).countP p = (l.map fun a => (f a).countP p).sum := by
  intro l
  induction l with
  | nil => simp
  | cons a t ih => simp [List.flatMap_cons, List.countP_append, ih]

lemma countP_congr_mem {α : Type} (p q : α → Bool) :
    ∀ l : List α, (∀ a ∈ l, p a = q a) → l.countP p = l.countP q := by
  intro l
  induction l with
  | nil => intro _; simp
  | cons a t ih =>
    intro h
    rw [List.countP_cons, List.countP_cons, h a (List.mem_cons_self a t),
      ih fun x hx => h x (List.mem_cons_of_mem a hx)]

/-! The streak scan: relating the left-to-right `(max, cur)` fold to the
existence of a window of five consecutive empty cells. -/

/-- The streak scan over an abstract boolean mask (true = empty cell). -/
def scanMax (v : List Bool) : Nat × Nat :=
  v.foldl (fun mc x => if x then (mc.1, mc.2 + 1) else (max mc.1 mc.2, 0)) (0, 0)

lemma scanMax_window : ∀ a b c d e f g h2 : Bool,
    5 ≤ max (scanMax [a, b, c, d, e, f, g, h2]).1 (scanMax [a, b, c, d, e, f, g, h2]).2 ↔
      ∃ s < 4, ∀ k < 5, [a, b, c, d, e, f, g, h2].getD (s + k) false = true := by
  decide

lemma getD_decide_list (p : Nat → Prop) [DecidablePred p] (m : Nat) (hm : m < 8) :
    [decide (p 0), decide (p 1), decide (p 2), decide (p 3), decide (p 4),
      decide (p 5), decide (p 6), decide (p 7)].getD m false = decide (p m) := by
  interval_cases m <;> rfl

lemma scan_fold_iff (p : Nat → Prop) [DecidablePred p] :
    5 ≤ max ((List.range 8).foldl
        (fun mc j => if p j then (mc.1, mc.2 + 1) else (max mc.1 mc.2, 0)) (0, 0)).1
      ((List.range 8).foldl
        (fun mc j => if p j then (mc.1, mc.2 + 1) else (max mc.1 mc.2, 0)) (0, 0)).2 ↔
      ∃ s < 4, ∀ k < 5, p (s + k) := by
  have hfold : (List.range 8).foldl
      (fun mc j => if p j then (mc.1, mc.2 + 1) else (max mc.1 mc.2, 0)) (0, 0) =
      scanMax [decide (p 0), decide (p 1), decide (p 2), decide (p 3),
        decide (p 4), decide (p 5), decide (p 6), decide (p 7)] := by
    show List.foldl _ (0, 0) [0, 1, 2, 3, 4, 5, 6, 7] = _
    simp only [scanMax, List.foldl_cons, List.foldl_nil, decide_eq_true_eq]
  rw [hfold, scanMax_window]
  constructor
  · rintro ⟨s, hs4, hk⟩
    refine ⟨s, hs4, fun k hk5 => ?_⟩
    have hg := hk k hk5
    rw [getD_decide_list p (s + k) (by omega)] at hg
    exact of_decide_eq_true hg
  · rintro ⟨s, hs4, hk⟩
    refine ⟨s, hs4, fun k hk5 => ?_⟩
    rw [getD_decide_list p (s + k) (by omega)]
    exact decide_eq_true (hk k hk5)

lemma rowStreakB_iff (board : Board) (i : Nat) :
    rowStreakB board i = true ↔ RowStreak board i := by
  rw [rowStreakB, decide_eq_true_eq]
  exact scan_fold_iff fun j => board i j = 0

lemma colStreakB_iff (board : Board) (i : Nat) :
    colStreakB board i = true ↔ ColStreak board i := by
  rw [colStreakB, decide_eq_true_eq]
  exact scan_fold_iff fun j => board j i = 0

lemma emptyWindowB_iff (board : Board) (hb : Binary board) (r c : Nat)
    (hr : r < 6) (hc : c < 6) :
    emptyWindowB board r c = true ↔ EmptyWindow board r c := by
  simp only [emptyWindowB, EmptyWindow, List.all_eq_true, List.mem_range,
    Bool.not_eq_true', decide_eq_false_iff_not]
  constructor
  · intro h dr hdr dc hdc
    rcases hb (r + dr) (by omega) (c + dc) (by omega) with h0 | h1
    · exact h0
    · exact absurd h1 (h dr hdr dc hdc)
  · intro h rr hrr cc hcc
    rw [h rr hrr cc hcc]
    omega

lemma sum_map_cast_mul (k : Int) (g : Nat → Nat) :
    ∀ l : List Nat, (l.map fun x => k * ((g x : Nat) : Int)).sum = k * (((l.map g).sum : Nat) : Int) := by
  intro l
  induction l with
  | nil => simp
  | cons a t ih => simp [ih]; push_cast; ring

lemma mem_cellPairs (rc : Nat × Nat) : rc ∈ cellPairs ↔ rc.1 < 8 ∧ rc.2 < 8 := by
  rcases rc with ⟨r, c⟩
  simp only [cellPairs, List.mem_flatMap, List.mem_map, List.mem_range]
  constructor
  · rintro ⟨a, ha, b, hb2, h⟩
    injection h with h1 h2
    subst h1; subst h2
    exact ⟨ha, hb2⟩
  · rintro ⟨hr, hc⟩
    exact ⟨r, hr, c, hc, rfl⟩

lemma windows_fold_eq (board : Board) (hb : Binary board) (s0 : Int) :
    (List.range 6).foldl (fun s r => (List.range 6).foldl (fun s c =>
        if emptyWindowB board r c then s + 50 else s) s) s0
      = s0 + 50 * (numEmptyWindows board : Int) := by
  have h1 : (fun (s : Int) (r : Nat) => (List.range 6).foldl (fun s c =>
      if emptyWindowB board r c then s + 50 else s) s)
      = fun s r => s + 50 * (((List.range 6).countP fun c => emptyWindowB board r c : Nat) : Int) := by
    funext s r
    exact foldl_ite_add _ 50 _ s
  rw [h1, foldl_add_map, sum_map_cast_mul]
  have hnat : ((List.range 6).map fun r => (List.range 6).countP fun c => emptyWindowB board r c).sum
      = numEmptyWindows board := by
    rw [numEmptyWindows, ← List.countP_eq_length_filter, windowPairs, countP_flatMap]
    refine congrArg List.sum (List.map_congr_left fun r hr => ?_)
    rw [List.countP_map]
    apply countP_congr_mem
    intro c hc
    have hr6 := List.mem_range.mp hr
    have hc6 := List.mem_range.mp hc
    cases h : emptyWindowB board r c
    · have hn := (emptyWindowB_iff board hb r c hr6 hc6).not.mp (by simp [h])
      simp [Function.comp, hn]
    · have hy := (emptyWindowB_iff board hb r c hr6 hc6).mp h
      simp [Function.comp, hy]
  rw [hnat]

lemma streaks_fold_eq (board : Board) (s1 : Int) :
    (List.range 8).foldl (fun s i =>
        let sh := if rowStreakB board i then s + 30 else s
        if colStreakB board i then sh + 30 else sh) s1
      = s1 + 30 * (numRowStreaks board : Int) + 30 * (numColStreaks board : Int) := by
  have h1 : (fun (s : Int) (i : Nat) =>
      let sh := if rowStreakB board i then s + 30 else s
      if colStreakB board i then sh + 30 else sh)
      = fun s i => s + ((if rowStreakB board i then (30 : Int) else 0)
          + (if colStreakB board i then (30 : Int) else 0)) := by
    funext s i
    cases hr : rowStreakB board i <;> cases hc : colStreakB board i <;> simp [hr, hc] <;> ring
  rw [h1]
  have h2 := foldl_add_map (fun i => ((if rowStreakB board i then (30 : Int) else 0)
      + (if colStreakB board i then (30 : Int) else 0))) (List.range 8) s1
  rw [h2, sum_map_add_int, sum_ite_count, sum_ite_count]
  have hr : ((List.range 8).countP fun i => rowStreakB board i) = numRowStreaks board := by
    rw [numRowStreaks, ← List.countP_eq_length_filter]
    apply countP_congr_mem
    intro i _
    cases h : rowStreakB board i
    · have hn := (rowStreakB_iff board i).not.mp (by simp [h])
      simp [hn]
    · have hy := (rowStreakB_iff board i).mp h
      simp [hy]
  have hc : ((List.range 8).countP fun i => colStreakB board i) = numColStreaks board := by
    rw [numColStreaks, ← List.countP_eq_length_filter]
    apply countP_congr_mem
    intro i _
    cases h : colStreakB board i
    · have hn := (colStreakB_iff board i).not.mp (by simp [h])
      simp [hn]
    · have hy := (colStreakB_iff board i).mp h
      simp [hy]
  rw [hr, hc]
  ring

lemma occSum_eq_numOccupied (board : Board) (hb : Binary board) :
    occSum board = numOccupied board := by
  have h0 : occSum board
      = ((List.range 8).flatMap fun r => (List.range 8).map fun c => board r c).sum :=
    (List.sum_eq_foldl).symm
  have h1 : ((List.range 8).flatMap fun r => (List.range 8).map fun c => board r c)
      = cellPairs.map fun rc => board rc.1 rc.2 := by
    rw [cellPairs, List.map_flatMap]
    exact congrArg _ (funext fun r => by rw [List.map_map]; rfl)
  have h2 : ∀ l : List Nat, (∀ x ∈ l, x = 0 ∨ x = 1) →
      l.sum = l.countP fun x => decide (x = 1) := by
    intro l
    induction l with
    | nil => intro _; simp
    | cons a t ih =>
      intro h
      rw [List.sum_cons, List.countP_cons, ih fun x hx => h x (List.mem_cons_of_mem a hx)]
      rcases h a (List.mem_cons_self a t) with rfl | rfl
      · simp
      · simp
        omega
  have hmem : ∀ x ∈ cellPairs.map fun rc => board rc.1 rc.2, x = 0 ∨ x = 1 := by
    intro x hx
    obtain ⟨rc, hrc, rfl⟩ := List.mem_map.mp hx
    have h8 := (mem_cellPairs rc).mp hrc
    exact hb rc.1 h8.1 rc.2 h8.2
  rw [h0, h1, h2 _ hmem, List.countP_map, numOccupied, ← List.countP_eq_length_filter]
  rfl

/-- Claim C3: on a binary board, `calculateStrategyScore` equals
`5000 + 200·totalCleared + 50·(empty 3×3 windows) + 30·(rows with a run of
5 empty cells) + 30·(columns with a run of 5 empty cells)
+ (64 − occupied cells)`. -/
theorem calculateStrategyScore_spec (board : Board) (tc : Nat) (hb : Binary board) :
    calculateStrategyScore board tc =
      5000 + 200 * (tc : Int) + 50 * (numEmptyWindows board : Int)
        + 30 * (numRowStreaks board : Int) + 30 * (numColStreaks board : Int)
        + (64 - (numOccupied board : Int)) := by
  show ((List.range 8).foldl _ ((List.range 6).foldl _ (5000 + 200 * (tc : Int))))
      + (64 - (occSum board : Int)) = _
  rw [windows_fold_eq board hb, streaks_fold_eq board, occSum_eq_numOccupied board hb]

/-- Witness for C3 on the fixture board `b1` with 2 cleared lines. -/
theorem calculateStrategyScore_spec_witness :
    Binary b1 ∧
      calculateStrategyScore b1 2 =
        5000 + 200 * (2 : Int) + 50 * (numEmptyWindows b1 : Int)
          + 30 * (numRowStreaks b1 : Int) + 30 * (numColStreaks b1 : Int)
          + (64 - (numOccupied b1 : Int)) :=
  ⟨by decide, calculateStrategyScore_spec b1 2 (by decide)⟩

/-! The strategy engine: `suggestMoves` and its helpers. -/

/-- The offset extraction at the top of `suggestMoves`: for each pattern,
collect `{dr: r, dc: c}` for every cell `p[r][c] === 1`, in row-major
order. -/
def extractOffsets (p : Grid) : List Offset :=
  (List.range p.length).flatMap fun r =>
    (List.range (p.getD r []).length).filterMap fun c =>
      if (p.getD r []).getD c 0 = 1 then some ⟨r, c⟩ else none

/-- `validPieces`: the extracted offset lists with empty ones filtered out. -/
def validPiecesOf (pieces : List Grid) : List (List Offset) :=
  (pieces.map extractOffsets).filter fun offs => decide (0 < offs.length)

/-- `getPermutations` from app.js, with the recursion depth made explicit as
fuel; the fuel equals the list length on every reachable call, so
`getPermutationsFuel arr.length arr` computes exactly the JavaScript
recursion. -/
def getPermutationsFuel : Nat → List Nat → List (List Nat)
  | 0, arr => [arr]
  | n + 1, arr =>
    if arr.length ≤ 1 then [arr]
    else
      (List.range arr.length).foldl (fun perms i =>
        perms ++ ((getPermutationsFuel n (arr.eraseIdx i)).map fun rest =>
          arr.getD i 0 :: rest)) []

/-- `getPermutations(arr)`. -/
def getPermutations (arr : List Nat) : List (List Nat) :=
  getPermutationsFuel arr.length arr

/-- One entry of the solver's `currentPath`: piece index, anchor and the
lines cleared by this placement.  (The JavaScript step object additionally
carries `boardBefore` and `offsets`, which are derivable presentation
data.) -/
structure PStep where
  pieceIdx : Nat
  row : Nat
  col : Nat
  cleared : Nat
deriving DecidableEq, Repr

/-- The row-major anchor enumeration `for (r...) for (c...)` of `solve`. -/
def anchors : List (Nat × Nat) :=
  (List.range 8).flatMap fun r => (List.range 8).map fun c => (r, c)

/-- The recursive `solve` closure of `suggestMoves`, with the mutable
`bestScore`/`bestSequence` pair threaded through as an accumulator
(`none` models the initial `-Infinity`/`null`).  At a complete assignment
the candidate is kept only when its score strictly exceeds the current
best. -/
def solveStep (vp : List (List Offset)) :
    List Nat → Board → List PStep → Nat → Option (Int × List PStep) →
      Option (Int × List PStep)
  | [], b, path, tc, best =>
    let score := calculateStrategyScore b tc
    match best with
    | none => some (score, path)
    | some bp => if bp.1 < score then some (score, path) else some bp
  | pIdx :: rest, b, path, tc, best =>
    anchors.foldl (fun acc rc =>
      if canFit b (vp.getD pIdx []) rc.1 rc.2 then
        solveStep vp rest (applyMove b (vp.getD pIdx []) rc.1 rc.2).1
          (path ++ [⟨pIdx, rc.1, rc.2, (applyMove b (vp.getD pIdx []) rc.1 rc.2).2⟩])
          (tc + (applyMove b (vp.getD pIdx []) rc.1 rc.2).2) acc
      else acc) best

/-- The `(bestScore, bestSequence)` pair left behind by the permutation loop
of `suggestMoves`; `none` when the pieces filter left nothing (the search
never runs) or when no complete legal assignment exists. -/
def suggestBest (board : Board) (pieces : List Grid) : Option (Int × List PStep) :=
  let vp := validPiecesOf pieces
  if vp.length = 0 then none
  else
    (getPermutations (List.range vp.length)).foldl
      (fun best ord => solveStep vp ord board [] 0 best) none

/-- The user-facing outcome of a solve: `noRender` models the early
`return` of `suggestMoves` (no suggestion UI is touched), `noSolution`
models `renderSuggestions` painting the "No solution found." message, and
`solution` models rendering the placement list. -/
inductive SolverOutcome where
  | noRender
  | noSolution
  | solution (seq : List PStep)
deriving DecidableEq, Repr

/-- `renderSuggestions(sequence, piecesCount)`: the placement list is shown
iff a sequence exists and covers every piece, otherwise the no-solution
message. -/
def renderSuggestions (seq : Option (List PStep)) (piecesCount : Nat) : SolverOutcome :=
  match seq with
  | some s => if s.length = piecesCount then SolverOutcome.solution s else SolverOutcome.noSolution
  | none => SolverOutcome.noSolution

/-- `suggestMoves(board, pieces)`: extract and filter pieces; if none are
left, return without rendering; otherwise run the search and render its
best sequence. -/
def suggestMoves (board : Board) (pieces : List Grid) : SolverOutcome :=
  let vp := validPiecesOf pieces
  if vp.length = 0 then SolverOutcome.noRender
  else renderSuggestions ((suggestBest board pieces).map Prod.snd) vp.length

/-- The empty board. -/
def emptyBoard : Board := fun _ _ => 0

set_option maxRecDepth 100000 in
set_option maxHeartbeats 8000000 in
/-- Counterexample to claim C5: on the empty board with the single piece
`[[1]]` the solver's best score is 7293, which no value of the claimed
formula `5000 + 1800 + (streak bonuses, a multiple of 30) + 63` can equal:
placing the piece occupies one cell, so at most 35 of the 36 windows are
empty and the claimed 1800-point window bonus is unattainable. -/
theorem scenarioA_score_counterexample :
    suggestBest emptyBoard [[[1]]] = some (7293, [⟨0, 0, 0, 0⟩]) ∧
      ∀ k : Nat, (5000 + 1800 + 30 * k + 63 : Int) ≠ 7293 := by
  refine ⟨by decide, fun k => ?_⟩
  omega

set_option maxRecDepth 100000 in
set_option maxHeartbeats 8000000 in
/-- Amended claim C5: on the empty board with one single-offset piece the
solver returns exactly one placement step with 0 cleared lines, and the
best score is 7293 = 5000 + 50·35 (35 empty windows) + 30·16 (all 8 rows
and all 8 columns keep a run of ≥ 5 empty cells) + 63 (emptiness). -/
theorem scenarioA_amended :
    suggestMoves emptyBoard [[[1]]] = SolverOutcome.solution [⟨0, 0, 0, 0⟩] ∧
      suggestBest emptyBoard [[[1]]] = some (5000 + 50 * 35 + 30 * 16 + 63, [⟨0, 0, 0, 0⟩]) := by
  constructor
  · decide
  · decide

/-- Counterexample to claim C6: when every piece is filtered out,
`suggestMoves` returns before touching the suggestions panel, so the
explicit "no solution" signal of `renderSuggestions` is not produced. -/
theorem noValidPieces_counterexample :
    suggestMoves emptyBoard [[[0]]] = SolverOutcome.noRender ∧
      SolverOutcome.noRender ≠ SolverOutcome.noSolution := by
  exact ⟨by decide, by decide⟩

/-- Amended claim C6: pieces with zero occupied offsets are filtered out
before the search, and if no pieces remain `suggestMoves` returns
immediately with no rendered output at all — in particular it does not
produce the explicit "no solution" message. -/
theorem noValidPieces_amended (board : Board) (pieces : List Grid) :
    (∀ offs ∈ validPiecesOf pieces, offs ≠ []) ∧
      (validPiecesOf pieces = [] → suggestMoves board pieces = SolverOutcome.noRender) := by
  constructor
  · intro offs hoffs
    have := (List.mem_filter.mp hoffs).2
    intro hnil
    rw [hnil] at this
    simp at this
  · intro h
    show (if (validPiecesOf pieces).length = 0 then _ else _) = _
    rw [h]
    rfl

/-- Witness for the amended C6 at a concrete zero-pattern piece list. -/
theorem noValidPieces_amended_witness :
    (∀ offs ∈ validPiecesOf [[[0]]], offs ≠ []) ∧
      (validPiecesOf [[[0]]] = [] → suggestMoves emptyBoard [[[0]]] = SolverOutcome.noRender) :=
  noValidPieces_amended emptyBoard [[[0]]]

/-! Optimality of the exhaustive search (claim C2). -/

lemma mem_validPiecesOf_ne_nil (pieces : List Grid) :
    ∀ offs ∈ validPiecesOf pieces, offs ≠ [] := by
  intro offs hoffs hnil
  have hmem := (List.mem_filter.mp hoffs).2
  rw [hnil] at hmem
  simp at hmem

lemma mem_anchors (r c : Nat) : (r, c) ∈ anchors ↔ r < 8 ∧ c < 8 := by
  have h : anchors = cellPairs := rfl
  rw [h]
  exact mem_cellPairs (r, c)

/-- Unfolding of `solveStep` at an exhausted piece list. -/
lemma solveStep_nil (vp : List (List Offset)) (b : Board) (path : List PStep)
    (tc : Nat) (best : Option (Int × List PStep)) :
    solveStep vp [] b path tc best =
      match best with
      | none => some (calculateStrategyScore b tc, path)
      | some bp => if bp.1 < calculateStrategyScore b tc
          then some (calculateStrategyScore b tc, path) else some bp := rfl

/-- Unfolding of `solveStep` at a remaining piece. -/
lemma solveStep_cons (vp : List (List Offset)) (pIdx : Nat) (rest : List Nat)
    (b : Board) (path : List PStep) (tc : Nat) (best : Option (Int × List PStep)) :
    solveStep vp (pIdx :: rest) b path tc best =
      anchors.foldl (fun acc rc =>
        if canFit b (vp.getD pIdx []) rc.1 rc.2 then
          solveStep vp rest (applyMove b (vp.getD pIdx []) rc.1 rc.2).1
            (path ++ [⟨pIdx, rc.1, rc.2, (applyMove b (vp.getD pIdx []) rc.1 rc.2).2⟩])
            (tc + (applyMove b (vp.getD pIdx []) rc.1 rc.2).2) acc
        else acc) best := rfl

/-- The accumulated best already reports at least score `s`. -/
def BestGe (s : Int) (o : Option (Int × List PStep)) : Prop :=
  ∃ bs bseq, o = some (bs, bseq) ∧ s ≤ bs

lemma foldl_preserve {α β : Type} (Q : β → Prop) (f : β → α → β) :
    ∀ (l : List α) (init : β), (∀ acc x, x ∈ l → Q acc → Q (f acc x)) →
      Q init → Q (l.foldl f init) := by
  intro l
  induction l with
  | nil => intro init _ h; simpa using h
  | cons a t ih =>
    intro init hstep h
    rw [List.foldl_cons]
    exact ih _ (fun acc x hx => hstep acc x (List.mem_cons_of_mem a hx))
      (hstep init a (List.mem_cons_self a t) h)

lemma solveStep_mono (vp : List (List Offset)) (s : Int) :
    ∀ (idxs : List Nat) (b : Board) (path : List PStep) (tc : Nat)
      (best : Option (Int × List PStep)),
      BestGe s best → BestGe s (solveStep vp idxs b path tc best) := by
  intro idxs
  induction idxs with
  | nil =>
    intro b path tc best hbest
    obtain ⟨bs, bseq, rfl, hle⟩ := hbest
    rw [solveStep_nil]
    by_cases h : bs < calculateStrategyScore b tc
    · exact ⟨calculateStrategyScore b tc, path, by simp [h], by omega⟩
    · exact ⟨bs, bseq, by simp [h], hle⟩
  | cons pIdx rest ih =>
    intro b path tc best hbest
    rw [solveStep_cons]
    refine foldl_preserve _ _ anchors best ?_ hbest
    intro acc rc _ hacc
    by_cases h : canFit b (vp.getD pIdx []) rc.1 rc.2 = true
    · rw [if_pos h]
      exact ih _ _ _ _ hacc
    · rw [if_neg h]
      exact hacc

/-- A complete legal placement sequence in the sense of the spec: starting
from board `b` with `tc` lines already cleared, repeatedly choose a legal
anchor for the next piece, apply `applyMove`, and score the final board
with the cumulative cleared count. -/
inductive LegalSeq (vp : List (List Offset)) : Board → Nat → List PStep → Int → Prop where
  | nil (b : Board) (tc : Nat) : LegalSeq vp b tc [] (calculateStrategyScore b tc)
  | cons (b : Board) (tc : Nat) (i r c : Nat) (rest : List PStep) (s : Int)
      (hi : i < vp.length)
      (hfit : canFit b (vp.getD i []) r c = true)
      (htail : LegalSeq vp (applyMove b (vp.getD i []) r c).1
        (tc + (applyMove b (vp.getD i []) r c).2) rest s) :
      LegalSeq vp b tc (⟨i, r, c, (applyMove b (vp.getD i []) r c).2⟩ :: rest) s

lemma solveStep_reach (vp : List (List Offset)) (hvp : ∀ offs ∈ vp, offs ≠ []) :
    ∀ (seq : List PStep) (b : Board) (tc : Nat) (s : Int),
      LegalSeq vp b tc seq s →
      ∀ (path : List PStep) (best : Option (Int × List PStep)),
        BestGe s (solveStep vp (seq.map PStep.pieceIdx) b path tc best) := by
  intro seq b tc s hleg
  induction hleg with
  | nil b tc =>
    intro path best
    rw [List.map_nil, solveStep_nil]
    cases best with
    | none => exact ⟨calculateStrategyScore b tc, path, rfl, le_refl _⟩
    | some bp =>
      by_cases h : bp.1 < calculateStrategyScore b tc
      · exact ⟨calculateStrategyScore b tc, path, by simp [h], le_refl _⟩
      · exact ⟨bp.1, bp.2, by simp [h], by omega⟩
  | cons b tc i r c rest s hi hfit htail ih =>
    intro path best
    rw [List.map_cons, solveStep_cons]
    have hoffs : vp.getD i [] ≠ [] := by
      have hgd : vp.getD i [] = vp[i] := List.getD_eq_getElem vp [] hi
      rw [hgd]
      exact hvp _ (List.getElem_mem hi)
    obtain ⟨off, hoffmem⟩ := List.exists_mem_of_ne_nil _ hoffs
    have hrc : r < 8 ∧ c < 8 := by
      have hall := (List.all_eq_true.mp hfit) off hoffmem
      simp only [Bool.not_eq_true', Bool.or_eq_false_iff, decide_eq_false_iff_not,
        not_le] at hall
      exact ⟨by omega, by omega⟩
    obtain ⟨l1, l2, hsplit⟩ := List.append_of_mem ((mem_anchors r c).mpr hrc)
    rw [hsplit, List.foldl_append, List.foldl_cons]
    simp only [hfit, if_true]
    refine foldl_preserve _ _ l2 _ ?_ (ih _ _)
    intro acc rc _ hacc
    by_cases h : canFit b (vp.getD i []) rc.1 rc.2 = true
    · rw [if_pos h]
      exact solveStep_mono vp s _ _ _ _ _ hacc
    · rw [if_neg h]
      exact hacc

lemma erase_eq_eraseIdx_indexOf :
    ∀ (l : List Nat) (a : Nat), a ∈ l → l.eraseIdx (l.indexOf a) = l.erase a := by
  intro l a
  induction l with
  | nil => intro h; simp at h
  | cons b t ih =>
    intro h
    by_cases hab : b = a
    · subst hab
      simp [List.indexOf_cons_self, List.eraseIdx_cons_zero, List.erase_cons_head]
    · have hidx : (b :: t).indexOf a = t.indexOf a + 1 := by
        simp [List.indexOf_cons, hab]
      have hmem : a ∈ t := by
        rcases List.mem_cons.mp h with rfl | hmem
        · exact absurd rfl hab
        · exact hmem
      rw [hidx, List.eraseIdx_cons_succ, List.erase_cons_tail, ih hmem]
      simp [hab]

lemma mem_foldl_append {α β : Type} (g : β → List α) :
    ∀ (l : List β) (init : List α) (a : α),
      (a ∈ init ∨ ∃ x ∈ l, a ∈ g x) → a ∈ l.foldl (fun acc x => acc ++ g x) init := by
  intro l
  induction l with
  | nil =>
    intro init a h
    rcases h with h | ⟨x, hx, _⟩
    · simpa using h
    · simp at hx
  | cons b t ih =>
    intro init a h
    rw [List.foldl_cons]
    apply ih
    rcases h with h | ⟨x, hx, hg⟩
    · exact Or.inl (List.mem_append.mpr (Or.inl h))
    · rcases List.mem_cons.mp hx with rfl | hx2
      · exact Or.inl (List.mem_append.mpr (Or.inr hg))
      · exact Or.inr ⟨x, hx2, hg⟩

lemma perm_mem_getPermutationsFuel :
    ∀ (n : Nat) (arr l : List Nat), arr.length = n → l.Perm arr →
      l ∈ getPermutationsFuel n arr := by
  intro n
  induction n with
  | zero =>
    intro arr l hlen hperm
    have harr : arr = [] := List.length_eq_zero.mp hlen
    subst harr
    have hl : l = [] := hperm.eq_nil
    subst hl
    exact List.mem_singleton.mpr rfl
  | succ n ih =>
    intro arr l hlen hperm
    show l ∈ (if arr.length ≤ 1 then [arr] else _)
    by_cases hle : arr.length ≤ 1
    · rw [if_pos hle]
      obtain ⟨a, ha⟩ := List.length_eq_one.mp (by omega : arr.length = 1)
      subst ha
      exact List.mem_singleton.mpr (List.perm_singleton.mp hperm)
    · rw [if_neg hle]
      obtain ⟨x, xs, rfl⟩ : ∃ x xs, l = x :: xs := by
        have hlenl : l.length = arr.length := hperm.length_eq
        cases l with
        | nil => simp at hlenl; omega
        | cons x xs => exact ⟨x, xs, rfl⟩
      have hx : x ∈ arr := hperm.subset (List.mem_cons_self x xs)
      have hidx : arr.indexOf x < arr.length := List.indexOf_lt_length.mpr hx
      have hget : arr.getD (arr.indexOf x) 0 = x := by
        rw [List.getD_eq_getElem arr 0 hidx]
        exact List.getElem_indexOf hidx
      have htail : xs.Perm (arr.erase x) :=
        (hperm.trans (List.perm_cons_erase hx)).cons_inv
      have hlen2 : (arr.eraseIdx (arr.indexOf x)).length = n := by
        rw [List.length_eraseIdx]
        simp only [hidx, if_true]
        omega
      have hmem := ih (arr.eraseIdx (arr.indexOf x)) xs hlen2
        (by rw [erase_eq_eraseIdx_indexOf arr x hx]; exact htail)
      apply mem_foldl_append
      refine Or.inr ⟨arr.indexOf x, List.mem_range.mpr hidx, ?_⟩
      exact List.mem_map.mpr ⟨xs, hmem, by rw [hget]⟩

lemma perm_mem_getPermutations (arr l : List Nat) (h : l.Perm arr) :
    l ∈ getPermutations arr :=
  perm_mem_getPermutationsFuel arr.length arr l rfl h

/-- Claim C2: whenever the search runs (some valid piece remains), the best
score reported by `suggestMoves`'s search is at least the score of every
complete legal placement sequence that uses each valid piece exactly
once. -/
theorem suggestBest_ge_legal (board : Board) (pieces : List Grid)
    (seq : List PStep) (s : Int)
    (hleg : LegalSeq (validPiecesOf pieces) board 0 seq s)
    (hperm : (seq.map PStep.pieceIdx).Perm (List.range (validPiecesOf pieces).length))
    (hne : validPiecesOf pieces ≠ []) :
    ∃ bs bseq, suggestBest board pieces = some (bs, bseq) ∧ s ≤ bs := by
  have hvp : ∀ offs ∈ validPiecesOf pieces, offs ≠ [] := mem_validPiecesOf_ne_nil pieces
  obtain ⟨p1, p2, hsplit⟩ :=
    List.append_of_mem (perm_mem_getPermutations _ _ hperm)
  have hbg : BestGe s (suggestBest board pieces) := by
    show BestGe s (if (validPiecesOf pieces).length = 0 then none else _)
    rw [if_neg fun h => hne (List.length_eq_zero.mp h)]
    rw [hsplit, List.foldl_append, List.foldl_cons]
    refine foldl_preserve _ _ p2 _ ?_ ?_
    · intro acc ord _ hacc
      exact solveStep_mono _ s _ _ _ _ _ hacc
    · exact solveStep_reach _ hvp seq board 0 s hleg [] _
  exact hbg

/-- Witness for C2: the concrete legal sequence that puts the single-cell
piece at the anchor (0,0) on the empty board. -/
theorem suggestBest_ge_legal_witness :
    ∃ bs bseq, suggestBest emptyBoard [[[1]]] = some (bs, bseq) ∧
      calculateStrategyScore (applyMove emptyBoard [⟨0, 0⟩] 0 0).1 0 ≤ bs := by
  have hvp : validPiecesOf [[[1]]] = [[⟨0, 0⟩]] := by decide
  have hcons : LegalSeq (validPiecesOf [[[1]]]) emptyBoard 0 [⟨0, 0, 0, 0⟩]
      (calculateStrategyScore (applyMove emptyBoard [⟨0, 0⟩] 0 0).1 0) := by
    rw [hvp]
    exact LegalSeq.cons emptyBoard 0 0 0 0 [] _ (by decide) (by decide)
      (LegalSeq.nil _ _)
  refine suggestBest_ge_legal emptyBoard [[[1]]] [⟨0, 0, 0, 0⟩] _ hcons ?_ ?_
  · rw [hvp]
    decide
  · rw [hvp]
    simp

/-! The cell classifier: `kMeansCluster` and `avgPoint` from app.js.
Color channels are exact rationals; `Math.hypot` comparisons are modelled
by squared-distance comparisons (the square root is strictly monotone). -/

/-- One classifier input record: three color channels and the derived luma
brightness computed upstream by `analyzeGrid`. -/
structure CellSample where
  r : ℚ
  g : ℚ
  b : ℚ
  brightness : ℚ
deriving DecidableEq

/-- A color point `[r, g, b]`. -/
abbrev Point := ℚ × ℚ × ℚ

/-- Squared Euclidean distance in color space. -/
def distSq (p q : Point) : ℚ :=
  (p.1 - q.1) ^ 2 + (p.2.1 - q.2.1) ^ 2 + (p.2.2 - q.2.2) ^ 2

/-- `let next = dA < dB ? 0 : 1` — the per-sample assignment of one k-means
round, with centers `cA` (index 0) and `cB` (index 1). -/
def assignOf (cA cB : Point) (p : Point) : Nat :=
  if distSq p cA < distSq p cB then 0 else 1

/-- `avgPoint(pts, assign, group)` from app.js: the mean color of the
members of a group, `[0,0,0]` when the group is empty. -/
def avgPoint (pts : List Point) (assign : List Nat) (group : Nat) : Point :=
  let members := (pts.zip assign).filter fun pa => decide (pa.2 = group)
  let count := members.length
  if count = 0 then (0, 0, 0)
  else ((members.map fun pa => pa.1.1).sum / count,
    (members.map fun pa => pa.1.2.1).sum / count,
    (members.map fun pa => pa.1.2.2).sum / count)

/-- One assignment round over all points. -/
def kmRound (points : List Point) (cA cB : Point) : List Nat :=
  points.map fun p => assignOf cA cB p

/-- The `for (let i = 0; i < 10; i++)` loop of `kMeansCluster`: assign every
sample, stop early if nothing changed, otherwise recompute both centers and
continue.  The fuel is the remaining iteration budget. -/
def kmLoop (points : List Point) : Nat → Point → Point → List Nat → List Nat
  | 0, _, _, assign => assign
  | n + 1, cA, cB, assign =>
    let next := kmRound points cA cB
    if next = assign then assign
    else kmLoop points n (avgPoint points next 0) (avgPoint points next 1) next

/-- The color points of the input samples. -/
def pointsOf (cells : List CellSample) : List Point :=
  cells.map fun s => (s.r, s.g, s.b)

/-- `[...cells].sort((a, b) => a.brightness - b.brightness)`: a stable
ascending sort by brightness. -/
def sortedByBrightness (cells : List CellSample) : List CellSample :=
  cells.mergeSort fun a b2 => decide (a.brightness ≤ b2.brightness)

/-- The center seeded from the darkest cell (cluster index 0). -/
def seedA (cells : List CellSample) : Point :=
  let first := (sortedByBrightness cells).headD ⟨0, 0, 0, 0⟩
  (first.r, first.g, first.b)

/-- The center seeded from the brightest cell (cluster index 1). -/
def seedB (cells : List CellSample) : Point :=
  let last := (sortedByBrightness cells).getLastD ⟨0, 0, 0, 0⟩
  (last.r, last.g, last.b)

/-- `kMeansCluster(cells)`, returning the per-cell labels (`groupId`s);
the JavaScript function returns the same labels attached to the cells. -/
def kMeansCluster (cells : List CellSample) : List Nat :=
  kmLoop (pointsOf cells) 10 (seedA cells) (seedB cells)
    (List.replicate cells.length 0)

lemma kmLoop_zero (points : List Point) (cA cB : Point) (assign : List Nat) :
    kmLoop points 0 cA cB assign = assign := rfl

lemma kmLoop_succ (points : List Point) (n : Nat) (cA cB : Point) (assign : List Nat) :
    kmLoop points (n + 1) cA cB assign =
      if kmRound points cA cB = assign then assign
      else kmLoop points n (avgPoint points (kmRound points cA cB) 0)
        (avgPoint points (kmRound points cA cB) 1) (kmRound points cA cB) := rfl

lemma kmLoop_length (points : List Point) :
    ∀ (n : Nat) (cA cB : Point) (assign : List Nat), assign.length = points.length →
      (kmLoop points n cA cB assign).length = points.length := by
  intro n
  induction n with
  | zero => intro cA cB assign hlen; simpa [kmLoop_zero] using hlen
  | succ n ih =>
    intro cA cB assign hlen
    rw [kmLoop_succ]
    by_cases h : kmRound points cA cB = assign
    · rw [if_pos h]; exact hlen
    · rw [if_neg h]
      exact ih _ _ _ (by simp [kmRound])

lemma assignOf_mem (cA cB p : Point) : assignOf cA cB p = 0 ∨ assignOf cA cB p = 1 := by
  unfold assignOf
  split
  · exact Or.inl rfl
  · exact Or.inr rfl

lemma kmLoop_mem (points : List Point) :
    ∀ (n : Nat) (cA cB : Point) (assign : List Nat),
      (∀ x ∈ assign, x = 0 ∨ x = 1) →
      ∀ x ∈ kmLoop points n cA cB assign, x = 0 ∨ x = 1 := by
  intro n
  induction n with
  | zero => intro cA cB assign h; simpa [kmLoop_zero] using h
  | succ n ih =>
    intro cA cB assign h
    rw [kmLoop_succ]
    by_cases heq : kmRound points cA cB = assign
    · rw [if_pos heq]; exact h
    · rw [if_neg heq]
      refine ih _ _ _ ?_
      intro x hx
      obtain ⟨p, _, rfl⟩ := List.mem_map.mp hx
      exact assignOf_mem _ _ _

/-- Claim C9: the classifier is a pure deterministic function — on any
64-sample input it emits exactly 64 labels, each in {0,1}, and identical
inputs yield identical labels (there is no randomness anywhere in the
model, mirroring the deterministic darkest/brightest seeding of the
code). -/
theorem kMeansCluster_deterministic (cells : List CellSample)
    (h : cells.length = 64) :
    (kMeansCluster cells).length = 64 ∧
      (∀ l ∈ kMeansCluster cells, l = 0 ∨ l = 1) ∧
      (∀ cells2 : List CellSample, cells2 = cells →
        kMeansCluster cells2 = kMeansCluster cells) := by
  refine ⟨?_, ?_, ?_⟩
  · have hpts : (pointsOf cells).length = 64 := by simp [pointsOf, h]
    rw [kMeansCluster, kmLoop_length _ _ _ _ _ (by simp [pointsOf]), hpts]
  · intro l hl
    rw [kMeansCluster] at hl
    exact kmLoop_mem _ _ _ _ _ (fun x hx => Or.inl (List.eq_of_mem_replicate hx)) l hl
  · intro cells2 h2
    rw [h2]

/-- Witness for C9 at a concrete 64-sample input. -/
theorem kMeansCluster_deterministic_witness :
    (List.replicate 64 (⟨0, 0, 0, 0⟩ : CellSample)).length = 64 ∧
      ((kMeansCluster (List.replicate 64 ⟨0, 0, 0, 0⟩)).length = 64 ∧
        (∀ l ∈ kMeansCluster (List.replicate 64 ⟨0, 0, 0, 0⟩), l = 0 ∨ l = 1) ∧
        (∀ cells2 : List CellSample, cells2 = List.replicate 64 ⟨0, 0, 0, 0⟩ →
          kMeansCluster cells2 = kMeansCluster (List.replicate 64 ⟨0, 0, 0, 0⟩))) :=
  ⟨by simp, kMeansCluster_deterministic _ (by simp)⟩

/-- Amended claim C7: a sample whose color is exactly equidistant from the
two current centers is assigned label 1 — the cluster seeded from the
brightest cell — because `dA < dB ? 0 : 1` sends ties to cluster 1. -/
theorem tie_assigned_to_brightest (cA cB p : Point)
    (h : distSq p cA = distSq p cB) : assignOf cA cB p = 1 := by
  unfold assignOf
  rw [if_neg]
  rw [h]
  exact lt_irrefl _

/-- Witness for the amended C7: the point (1,0,0) is equidistant from the
centers (0,0,0) and (2,0,0) and receives label 1. -/
theorem tie_assigned_to_brightest_witness :
    distSq ((1 : ℚ), 0, 0) (0, 0, 0) = distSq ((1 : ℚ), 0, 0) (2, 0, 0) ∧
      assignOf (0, 0, 0) (2, 0, 0) ((1 : ℚ), 0, 0) = 1 :=
  ⟨by norm_num [distSq], tie_assigned_to_brightest _ _ _ (by norm_num [distSq])⟩

/-- Three samples with luma-consistent brightness: the middle one is
equidistant from the darkest and the brightest cell's colors. -/
def cellsA : List CellSample :=
  [⟨0, 0, 0, 0⟩, ⟨1, 0, 0, 299 / 1000⟩, ⟨2, 0, 0, 598 / 1000⟩]

/-- Counterexample to claim C7: on `cellsA` the seeds are the darkest cell
(0,0,0) (cluster 0) and the brightest cell (2,0,0) (cluster 1); the middle
sample (1,0,0) has exactly equal distance to both centers in the first
assignment round, yet the classifier labels it 1 — the brightest-seeded
cluster, not the darkest-seeded one. -/
theorem kMeans_tie_counterexample :
    seedA cellsA = (0, 0, 0) ∧ seedB cellsA = (2, 0, 0) ∧
      distSq ((1 : ℚ), 0, 0) (seedA cellsA) = distSq ((1 : ℚ), 0, 0) (seedB cellsA) ∧
      kMeansCluster cellsA = [0, 1, 1] := by
  have hsort : sortedByBrightness cellsA = cellsA := by
    apply List.mergeSort_of_sorted
    simp only [cellsA, List.pairwise_cons, List.mem_cons, List.mem_singleton,
      decide_eq_true_eq]
    norm_num
  have hA : seedA cellsA = (0, 0, 0) := by
    rw [seedA, hsort]
    rfl
  have hB : seedB cellsA = (2, 0, 0) := by
    rw [seedB, hsort]
    rfl
  have h1 : kmRound (pointsOf cellsA) (0, 0, 0) (2, 0, 0) = [0, 1, 1] := by
    norm_num [kmRound, pointsOf, cellsA, assignOf, distSq]
  have havg0 : avgPoint (pointsOf cellsA) [0, 1, 1] 0 = (0, 0, 0) := by
    norm_num [avgPoint, pointsOf, cellsA, List.zip]
  have havg1 : avgPoint (pointsOf cellsA) [0, 1, 1] 1 = (3 / 2, 0, 0) := by
    norm_num [avgPoint, pointsOf, cellsA, List.zip]
  have h2 : kmRound (pointsOf cellsA) (0, 0, 0) (3 / 2, 0, 0) = [0, 1, 1] := by
    norm_num [kmRound, pointsOf, cellsA, assignOf, distSq]
  refine ⟨hA, hB, by rw [hA, hB]; norm_num [distSq], ?_⟩
  show kmLoop (pointsOf cellsA) 10 (seedA cellsA) (seedB cellsA)
    (List.replicate cellsA.length 0) = [0, 1, 1]
  rw [hA, hB, show cellsA.length = 3 from rfl,
    show (List.replicate 3 (0 : Nat)) = [0, 0, 0] from rfl,
    show (10 : Nat) = 9 + 1 from rfl, kmLoop_succ, h1, if_neg (by decide),
    havg0, havg1, show (9 : Nat) = 8 + 1 from rfl, kmLoop_succ, h2, if_pos rfl]

/-! The piece-shape inferencer: the geometric arithmetic of
`processFigureSlot` (app.js).  A blob is a detected contour's bounding box
plus pixel area (`cv.contourArea` may be fractional, hence `ℚ`). -/

/-- One detected contour in a slot: bounding box and pixel area. -/
structure Blob where
  x : Nat
  y : Nat
  w : Nat
  h : Nat
  area : ℚ
deriving DecidableEq

/-- `Math.round` for nonnegative inputs: round half up. -/
def jsRound (q : ℚ) : ℤ := ⌊q + 1 / 2⌋

/-- The collective bounding box `(minX, minY, maxX, maxY)` of all blobs
passing the `area > 40` noise filter, starting from `(w, h, 0, 0)`. -/
def slotBBox (blobs : List Blob) (w h : Nat) : Int × Int × Int × Int :=
  blobs.foldl (fun acc bl =>
    if 40 < bl.area then
      (min acc.1 (bl.x : Int), min acc.2.1 (bl.y : Int),
        max acc.2.2.1 ((bl.x : Int) + bl.w), max acc.2.2.2 ((bl.y : Int) + bl.h))
    else acc) ((w : Int), (h : Int), 0, 0)

/-- The `dims` array: widths and heights of all blobs passing the looser
`area > 20` filter. -/
def slotDims (blobs : List Blob) : List Nat :=
  blobs.foldl (fun d bl => if 20 < bl.area then d ++ [bl.w, bl.h] else d) []

/-- `dims.sort((a,b) => a-b).filter(d => d > 12)`. -/
def slotCandidates (blobs : List Blob) : List Nat :=
  ((slotDims blobs).mergeSort fun a b2 => decide (a ≤ b2)).filter fun d =>
    decide (12 < d)

/-- The estimated base unit size: 50 when no candidate dimension exceeds
12 px, otherwise the smallest candidate (divided by its rounded ratio to a
nominal 50 px unit when it exceeds 80 px). -/
def slotBaseUnit (blobs : List Blob) : ℚ :=
  match slotCandidates blobs with
  | [] => 50
  | smallest :: _ =>
    if 80 < smallest then
      (smallest : ℚ) / ((max 1 (jsRound ((smallest : ℚ) / 50)) : ℤ) : ℚ)
    else (smallest : ℚ)

/-- `finalCols`/`finalRows`: the footprint extent divided by the base unit,
rounded and clamped to [1,5]. -/
def slotGridDims (blobs : List Blob) (w h : Nat) : Int × Int :=
  let box := slotBBox blobs w h
  (max 1 (min 5 (jsRound ((((box.2.2.1 - box.1 : Int)) : ℚ) / slotBaseUnit blobs))),
    max 1 (min 5 (jsRound ((((box.2.2.2 - box.2.1 : Int)) : ℚ) / slotBaseUnit blobs))))

lemma mem_slotDims_aux :
    ∀ (blobs : List Blob) (init : List Nat) (d : Nat),
      d ∈ blobs.foldl (fun d bl => if 20 < bl.area then d ++ [bl.w, bl.h] else d) init →
        d ∈ init ∨ ∃ bl ∈ blobs, 20 < bl.area ∧ (d = bl.w ∨ d = bl.h) := by
  intro blobs
  induction blobs with
  | nil => intro init d hd; exact Or.inl (by simpa using hd)
  | cons bl t ih =>
    intro init d hd
    rw [List.foldl_cons] at hd
    rcases ih _ d hd with hinit | ⟨bl2, hbl2, h20, hwh⟩
    · by_cases h : 20 < bl.area
      · rw [if_pos h] at hinit
        rcases List.mem_append.mp hinit with h1 | h2
        · exact Or.inl h1
        · rcases List.mem_cons.mp h2 with rfl | h3
          · exact Or.inr ⟨bl, List.mem_cons_self bl t, h, Or.inl rfl⟩
          · rcases List.mem_singleton.mp h3 with rfl
            exact Or.inr ⟨bl, List.mem_cons_self bl t, h, Or.inr rfl⟩
      · rw [if_neg h] at hinit
        exact Or.inl hinit
    · exact Or.inr ⟨bl2, List.mem_cons_of_mem bl hbl2, h20, hwh⟩

/-- Claim C10: when some blob passes the `area > 40` filter but no blob
dimension passing the `area > 20` filter exceeds 12 px, the base unit
defaults to 50 px and the grid dimensions are `round(figW/50)` and
`round(figH/50)`, each clamped to [1,5]. -/
theorem slot_default_unit (blobs : List Blob) (w h : Nat)
    (h40 : ∃ bl ∈ blobs, 40 < bl.area)
    (h12 : ∀ bl ∈ blobs, 20 < bl.area → bl.w ≤ 12 ∧ bl.h ≤ 12) :
    slotBaseUnit blobs = 50 ∧
      slotGridDims blobs w h =
        (max 1 (min 5 (jsRound ((((slotBBox blobs w h).2.2.1 - (slotBBox blobs w h).1 : Int) : ℚ) / 50))),
          max 1 (min 5 (jsRound ((((slotBBox blobs w h).2.2.2 - (slotBBox blobs w h).2.1 : Int) : ℚ) / 50)))) := by
  have hcand : slotCandidates blobs = [] := by
    rw [slotCandidates, List.filter_eq_nil_iff]
    intro d hd
    have hmem : d ∈ slotDims blobs := List.mem_mergeSort.mp hd
    rcases mem_slotDims_aux blobs [] d hmem with hinit | ⟨bl, hbl, h20, hwh⟩
    · simp at hinit
    · have := h12 bl hbl h20
      rcases hwh with rfl | rfl <;> simp <;> omega
  have hbu : slotBaseUnit blobs = 50 := by
    rw [slotBaseUnit, hcand]
  refine ⟨hbu, ?_⟩
  rw [slotGridDims, hbu]

/-- Witness for C10: a single 12×12 blob of area 50 in a 200×100 slot. -/
theorem slot_default_unit_witness :
    (∃ bl ∈ [(⟨10, 10, 12, 12, 50⟩ : Blob)], 40 < bl.area) ∧
      (∀ bl ∈ [(⟨10, 10, 12, 12, 50⟩ : Blob)], 20 < bl.area → bl.w ≤ 12 ∧ bl.h ≤ 12) ∧
      (slotBaseUnit [⟨10, 10, 12, 12, 50⟩] = 50 ∧
        slotGridDims [⟨10, 10, 12, 12, 50⟩] 200 100 =
          (max 1 (min 5 (jsRound ((((slotBBox [⟨10, 10, 12, 12, 50⟩] 200 100).2.2.1 - (slotBBox [⟨10, 10, 12, 12, 50⟩] 200 100).1 : Int) : ℚ) / 50))),
            max 1 (min 5 (jsRound ((((slotBBox [⟨10, 10, 12, 12, 50⟩] 200 100).2.2.2 - (slotBBox [⟨10, 10, 12, 12, 50⟩] 200 100).2.1 : Int) : ℚ) / 50))))) := by
  have h40 : ∃ bl ∈ [(⟨10, 10, 12, 12, 50⟩ : Blob)], 40 < bl.area :=
    ⟨⟨10, 10, 12, 12, 50⟩, List.mem_singleton.mpr rfl, by norm_num⟩
  have h12 : ∀ bl ∈ [(⟨10, 10, 12, 12, 50⟩ : Blob)], 20 < bl.area → bl.w ≤ 12 ∧ bl.h ≤ 12 := by
    intro bl hbl
    rw [List.mem_singleton.mp hbl]
    intro _
    exact ⟨le_refl _, le_refl _⟩
  exact ⟨h40, h12, slot_default_unit [⟨10, 10, 12, 12, 50⟩] 200 100 h40 h12⟩

/-! Offset extraction and the (absent) normalization of claim C8. -/

lemma mem_extractOffsets (p : Grid) (off : Offset) :
    off ∈ extractOffsets p ↔
      off.dr < p.length ∧ off.dc < (p.getD off.dr []).length ∧
        (p.getD off.dr []).getD off.dc 0 = 1 := by
  simp only [extractOffsets, List.mem_flatMap, List.mem_filterMap, List.mem_range]
  constructor
  · rintro ⟨r, hr, c, hc, hif⟩
    by_cases h1 : (p.getD r []).getD c 0 = 1
    · rw [if_pos h1] at hif
      obtain rfl : (⟨r, c⟩ : Offset) = off := Option.some.inj hif
      exact ⟨hr, hc, h1⟩
    · rw [if_neg h1] at hif
      simp at hif
  · rintro ⟨h1, h2, h3⟩
    exact ⟨off.dr, h1, off.dc, h2, by rw [if_pos h3]⟩

/-- A pattern whose only occupied cell sits at (1,1): its first row and
first column are empty. -/
def gridShifted : Grid := [[0, 0], [0, 1]]

/-- Counterexample to claim C8: the solver extracts the raw offsets of
`gridShifted` as `[{dr: 1, dc: 1}]` — a non-empty offset set whose minimum
row offset and minimum column offset are both 1, not 0; no normalization
takes place. -/
theorem extract_no_normalization_counterexample :
    extractOffsets gridShifted = [⟨1, 1⟩] ∧
      ∀ off ∈ extractOffsets gridShifted, off.dr ≠ 0 ∧ off.dc ≠ 0 := by
  exact ⟨by decide, by decide⟩

/-- Amended claim C8: offsets are extracted verbatim from the pattern grid
with no normalization; the minimum row offset is 0 exactly when the
pattern's first row contains an occupied cell, and the minimum column
offset is 0 exactly when some row has its first cell occupied. -/
theorem extract_min_offset_iff (p : Grid) :
    ((∃ off ∈ extractOffsets p, off.dr = 0) ↔
      ∃ c < (p.getD 0 []).length, (p.getD 0 []).getD c 0 = 1) ∧
    ((∃ off ∈ extractOffsets p, off.dc = 0) ↔
      ∃ r < p.length, 0 < (p.getD r []).length ∧ (p.getD r []).getD 0 0 = 1) := by
  constructor
  · constructor
    · rintro ⟨off, hoff, hdr⟩
      have hm := (mem_extractOffsets p off).mp hoff
      rw [hdr] at hm
      exact ⟨off.dc, hm.2.1, hm.2.2⟩
    · rintro ⟨c, hc, h1⟩
      have hp : 0 < p.length := by
        by_contra hnp
        have hnil : p = [] := List.length_eq_zero.mp (by omega)
        rw [hnil] at hc
        simp at hc
      exact ⟨⟨0, c⟩, (mem_extractOffsets p ⟨0, c⟩).mpr ⟨hp, hc, h1⟩, rfl⟩
  · constructor
    · rintro ⟨off, hoff, hdc⟩
      have hm := (mem_extractOffsets p off).mp hoff
      rw [hdc] at hm
      exact ⟨off.dr, hm.1, hm.2.1, hm.2.2⟩
    · rintro ⟨r, hr, hlen, h1⟩
      exact ⟨⟨r, 0⟩, (mem_extractOffsets p ⟨r, 0⟩).mpr ⟨hr, hlen, h1⟩, rfl⟩

end BlockBlast
